import Mathlib

/-!
Verification of the matching engine of the AI-Resume-Matcher backend
(`app/main.py`, `app/nlp_utils.py`, `app/file_utils.py`, `app/skills_data.py`).

Modelling conventions.
* Python `float` values are modelled as exact rationals (`ℚ`); every number the
  engine manipulates (weights 0.6/0.4, percentages, rounded scores) is exactly
  representable and no claim exercises a floating-point rounding artefact.
* Python `round(x, n)` is modelled by `pyRound2` / `pyRound3` using Mathlib's
  `round` (ties away from the floor); Python rounds ties to even, but the two
  conventions agree off exact half-ulp ties and no claim evaluates one.
* Python strings are Lean `String`s (lists of unicode characters); the regex
  class `\s` and `str.strip()` are modelled by the explicit character class
  `isPySpace` covering the whitespace characters Python treats as `\s`.
* External collaborators (the spaCy tokenizer, the TF-IDF vectorizer and the
  PDF/DOCX text extractors) are parameters of the embedded functions, as the
  spec treats them as capabilities supplied from outside the core.
-/

/-- The character class Python's `\s` (and `str.strip()`) matches: ASCII
whitespace plus the unicode whitespace characters. -/
def isPySpace (c : Char) : Bool :=
  c = ' ' || c = '\t' || c = '\n' || c = '\r' || c = '\x0b' || c = '\x0c' ||
  c = '\x1c' || c = '\x1d' || c = '\x1e' || c = '\x1f' || c = '\x85' || c = '\xa0' ||
  c = '\u1680' || ('\u2000' ≤ c && c ≤ '\u200a') || c = '\u2028' || c = '\u2029' ||
  c = '\u202f' || c = '\u205f' || c = '\u3000'

/-- `re.sub(r"\s+", " ", ·)`: every maximal run of whitespace characters is
replaced by a single space (all characters of a run but the last are dropped,
the last becomes `' '`). -/
def collapseSpaces : List Char → List Char
  | [] => []
  | [c] => if isPySpace c then [' '] else [c]
  | c1 :: c2 :: rest =>
    if isPySpace c1 && isPySpace c2 then collapseSpaces (c2 :: rest)
    else (if isPySpace c1 then ' ' else c1) :: collapseSpaces (c2 :: rest)

/-- Python `str.lower()`, modelled character-wise (ASCII case mapping). -/
def pyToLower (s : String) : String := String.mk (s.data.map Char.toLower)

/-- Python `str.strip()`: remove leading and trailing whitespace. -/
def pyStrip (l : List Char) : List Char :=
  ((l.dropWhile fun c => isPySpace c).reverse.dropWhile fun c => isPySpace c).reverse

/-- `clean_text` from `app/nlp_utils.py`: empty input maps to `""`; otherwise
replace `\r` and `\n` by spaces, collapse whitespace runs, and strip. -/
def clean_text (text : String) : String :=
  if text = "" then ""
  else
    let t1 := text.data.map fun c => if c = '\r' then ' ' else c
    let t2 := t1.map fun c => if c = '\n' then ' ' else c
    String.mk (pyStrip (collapseSpaces t2))

/-- `clean_text` applied to a possibly absent input: Python's `if not text`
guard sends `None` to `""` just like the empty string. -/
def clean_text_opt : Option String → String
  | none => ""
  | some t => clean_text t

/-- Python `round(x, 2)` on the exact-rational model. -/
def pyRound2 (x : ℚ) : ℚ := (round (x * 100) : ℤ) / 100

/-- Python `round(x, 3)` on the exact-rational model. -/
def pyRound3 (x : ℚ) : ℚ := (round (x * 1000) : ℤ) / 1000

/-- Python `sep.join(parts)`. -/
def joinSep (sep : String) : List String → String
  | [] => ""
  | [x] => x
  | x :: xs => x ++ sep ++ joinSep sep xs

/-- The `SkillsMatch` record of `app/main.py`. -/
structure SkillsMatch where
  matched_skills : List String
  missing_skills : List String
  extra_resume_skills : List String
deriving DecidableEq

/-- `compute_skill_match` from `app/main.py`: form the two sets, return the
sorted intersection and differences. -/
def compute_skill_match (resume_skills job_skills : List String) : SkillsMatch :=
  let resume_set := resume_skills.toFinset
  let job_set := job_skills.toFinset
  { matched_skills := (resume_set ∩ job_set).sort (· ≤ ·)
    missing_skills := (job_set \ resume_set).sort (· ≤ ·)
    extra_resume_skills := (resume_set \ job_set).sort (· ≤ ·) }

/-- `combine_scores` from `app/main.py`. -/
def combine_scores (text_sim skill_match_pct : ℚ) : ℚ :=
  let skill_norm := skill_match_pct / 100
  let combined := 0.6 * skill_norm + 0.4 * text_sim
  pyRound2 (combined * 100)

/-- The skill-match percentage step of `run_analysis` (`app/main.py`,
lines 119-124): `0.0` on an empty requirement list, otherwise the rounded
coverage percentage. -/
def skill_match_pct (matched_skills job_skills : List String) : ℚ :=
  if job_skills ≠ [] then
    pyRound2 (100 * (matched_skills.length : ℚ) / (job_skills.length : ℚ))
  else 0

/-- `extract_skills` from `app/nlp_utils.py`, with the skill vocabulary and the
spaCy tokenizer as parameters (the spec's collaborators). The tokenizer yields
the set of token strings of the normalized text. -/
def extract_skills (tokenize : String → Finset String) (skillSet : Finset String)
    (text : String) : List String :=
  if text = "" then []
  else
    let text_norm := pyToLower (clean_text text)
    let phraseFound := skillSet.filter fun skill => skill.data <:+: text_norm.data
    let tokens := tokenize text_norm
    let tokenFound := skillSet.filter fun skill => ¬ ' ' ∈ skill.data ∧ skill ∈ tokens
    (phraseFound ∪ tokenFound).sort (· ≤ ·)

/-- The phrase-match-only variant of `extract_skills` (steps 1-3 of the spec,
token matching removed), for the redundancy claim. -/
def extract_skills_phrase_only (skillSet : Finset String) (text : String) : List String :=
  if text = "" then []
  else
    let text_norm := pyToLower (clean_text text)
    (skillSet.filter fun skill => skill.data <:+: text_norm.data).sort (· ≤ ·)

/-- ASCII decimal digit, the `\d` of the year regex. -/
def isAsciiDigit (c : Char) : Bool := '0' ≤ c && c ≤ '9'

/-- Numeric value of an ASCII digit. -/
def digitVal (c : Char) : Nat := c.toNat - '0'.toNat

/-- The alternation `(years|year|yrs)` of the year regex, tried in the regex's
preference order; returns the remaining suffix on success. -/
def matchWord : List Char → Option (List Char)
  | 'y' :: 'e' :: 'a' :: 'r' :: 's' :: rest => some rest
  | 'y' :: 'e' :: 'a' :: 'r' :: rest => some rest
  | 'y' :: 'r' :: 's' :: rest => some rest
  | _ => none

/-- The tail `\s*\+?\s*(years|year|yrs)` of the regex in
`extract_years_of_experience`: skip whitespace, an optional plus, more
whitespace, then the word. Regex backtracking cannot produce any other
outcome because the word starts with `y`, which is neither whitespace nor
`+`, so the greedy deterministic reading is exact. -/
def matchTail (l : List Char) : Option (List Char) :=
  match l.dropWhile fun c => isPySpace c with
  | '+' :: r => matchWord (r.dropWhile fun c => isPySpace c)
  | l1 => matchWord l1

/-- One attempt of `(\d{1,2})\s*\+?\s*(years|year|yrs)` at the head of `l`;
on success, the value of the digit group and the suffix after the match.
When two digits are present and the tail fails, regex backtracking to a
one-digit group also fails, since the tail would then have to start at the
second digit and none of `\s`, `+`, `y` is a digit. -/
def matchYearAt : List Char → Option (Nat × List Char)
  | [] => none
  | c1 :: rest =>
    if isAsciiDigit c1 then
      match rest with
      | [] => (matchTail []).map fun rem => (digitVal c1, rem)
      | c2 :: rest2 =>
        if isAsciiDigit c2 then
          (matchTail rest2).map fun rem => (10 * digitVal c1 + digitVal c2, rem)
        else
          (matchTail rest).map fun rem => (digitVal c1, rem)
    else none

theorem matchWord_length {l rem : List Char} (h : matchWord l = some rem) :
    rem.length < l.length := by
  unfold matchWord at h
  split at h <;> simp_all <;> omega

theorem matchTail_length {l rem : List Char} (h : matchTail l = some rem) :
    rem.length < l.length := by
  unfold matchTail at h
  have hdw : (l.dropWhile fun c => isPySpace c).length ≤ l.length :=
    (List.IsSuffix.sublist (List.dropWhile_suffix _)).length_le
  split at h
  · rename_i r heq
    have h1 : (r.dropWhile fun c => isPySpace c).length ≤ r.length :=
      (List.IsSuffix.sublist (List.dropWhile_suffix _)).length_le
    have h2 := matchWord_length h
    have h3 : r.length + 1 ≤ l.length := by
      have := congrArg List.length heq
      simp at this
      omega
    omega
  · have h2 := matchWord_length h
    omega

theorem matchYearAt_length {l : List Char} {v : Nat} {rem : List Char}
    (h : matchYearAt l = some (v, rem)) : rem.length < l.length := by
  unfold matchYearAt at h
  split at h
  · exact absurd h (by simp)
  · rename_i c1 rest
    split at h
    · split at h
      · simp only [Option.map_eq_some'] at h
        obtain ⟨rm, hrm, hpair⟩ := h
        exact absurd (matchTail_length hrm) (by simp)
      · rename_i c2 rest2
        split at h <;>
        · simp only [Option.map_eq_some'] at h
          obtain ⟨rm, hrm, hpair⟩ := h
          cases hpair
          have := matchTail_length hrm
          simp at this ⊢
          omega
    · exact absurd h (by simp)

/-- `re.findall` for the year pattern, fuel-indexed so that the scan is
structurally recursive: scan left to right; on a match, record the digit-group
value and resume after the matched text, otherwise advance one character.
Every step shortens the text, so `l.length` fuel always suffices. -/
def findYearAux : Nat → List Char → List Nat
  | 0, _ => []
  | _, [] => []
  | fuel + 1, c :: rest =>
    match matchYearAt (c :: rest) with
    | some (v, rem) => v :: findYearAux fuel rem
    | none => findYearAux fuel rest

/-- `re.findall` for the year pattern on a whole text. -/
def findYearMatches (l : List Char) : List Nat := findYearAux l.length l

/-- `extract_years_of_experience` from `app/nlp_utils.py`: none on empty text
or no match, otherwise the maximum digit-group value over all matches. -/
def extract_years_of_experience (text : String) : Option Nat :=
  if text = "" then none
  else
    let text_norm := pyToLower (clean_text text)
    match findYearMatches text_norm.data with
    | [] => none
    | v :: vs => some (vs.foldl max v)

/-- Tail of the year pattern as the claim words it: an optional literal `+`
directly after the digits, then optional whitespace, then the word. Written
from the spec's words (no whitespace allowed before the `+`), for comparison
with `matchTail`. -/
def matchTailSpec (l : List Char) : Option (List Char) :=
  match l with
  | '+' :: r => matchWord (r.dropWhile fun c => isPySpace c)
  | l1 => matchWord (l1.dropWhile fun c => isPySpace c)

/-- One attempt of the claim's pattern `(\d{1,2})\+?\s*(years|year|yrs)` at
the head of `l`. Written from the spec's words. -/
def matchYearAtSpec : List Char → Option (Nat × List Char)
  | [] => none
  | c1 :: rest =>
    if isAsciiDigit c1 then
      match rest with
      | [] => (matchTailSpec []).map fun rem => (digitVal c1, rem)
      | c2 :: rest2 =>
        if isAsciiDigit c2 then
          (matchTailSpec rest2).map fun rem => (10 * digitVal c1 + digitVal c2, rem)
        else
          (matchTailSpec rest).map fun rem => (digitVal c1, rem)
    else none

theorem matchTailSpec_length {l rem : List Char} (h : matchTailSpec l = some rem) :
    rem.length < l.length := by
  unfold matchTailSpec at h
  split at h
  · rename_i r
    have h1 : (r.dropWhile fun c => isPySpace c).length ≤ r.length :=
      (List.IsSuffix.sublist (List.dropWhile_suffix _)).length_le
    have h2 := matchWord_length h
    simp only [List.length_cons]
    omega
  · have h1 : (l.dropWhile fun c => isPySpace c).length ≤ l.length :=
      (List.IsSuffix.sublist (List.dropWhile_suffix _)).length_le
    have h2 := matchWord_length h
    omega

theorem matchYearAtSpec_length {l : List Char} {v : Nat} {rem : List Char}
    (h : matchYearAtSpec l = some (v, rem)) : rem.length < l.length := by
  unfold matchYearAtSpec at h
  split at h
  · exact absurd h (by simp)
  · rename_i c1 rest
    split at h
    · split at h
      · simp only [Option.map_eq_some'] at h
        obtain ⟨rm, hrm, hpair⟩ := h
        exact absurd (matchTailSpec_length hrm) (by simp)
      · rename_i c2 rest2
        split at h <;>
        · simp only [Option.map_eq_some'] at h
          obtain ⟨rm, hrm, hpair⟩ := h
          cases hpair
          have := matchTailSpec_length hrm
          simp at this ⊢
          omega
    · exact absurd h (by simp)

/-- Scanner for the claim's pattern, fuel-indexed like `findYearAux`.
Written from the spec's words. -/
def findYearAuxSpec : Nat → List Char → List Nat
  | 0, _ => []
  | _, [] => []
  | fuel + 1, c :: rest =>
    match matchYearAtSpec (c :: rest) with
    | some (v, rem) => v :: findYearAuxSpec fuel rem
    | none => findYearAuxSpec fuel rest

/-- Scanner for the claim's pattern on a whole text. Written from the spec's
words. -/
def findYearMatchesSpec (l : List Char) : List Nat := findYearAuxSpec l.length l

/-- The year estimator as the claim words it (pattern without the leading
whitespace of the code's `\s*\+?`). Written from the spec's words. -/
def extract_years_spec (text : String) : Option Nat :=
  if text = "" then none
  else
    let text_norm := pyToLower (clean_text text)
    match findYearMatchesSpec text_norm.data with
    | [] => none
    | v :: vs => some (vs.foldl max v)

/-- The resume profile of `build_resume_profile` (`app/nlp_utils.py`). -/
structure ResumeProfile where
  skills : List String
  years_of_experience : Option Nat
deriving DecidableEq

/-- The job profile of `build_job_profile` (`app/nlp_utils.py`). -/
structure JobProfile where
  required_skills : List String
deriving DecidableEq

/-- `build_resume_profile` from `app/nlp_utils.py`. -/
def build_resume_profile (tokenize : String → Finset String) (skillSet : Finset String)
    (text : String) : ResumeProfile :=
  { skills := extract_skills tokenize skillSet text
    years_of_experience := extract_years_of_experience text }

/-- `build_job_profile` from `app/nlp_utils.py`. -/
def build_job_profile (tokenize : String → Finset String) (skillSet : Finset String)
    (text : String) : JobProfile :=
  { required_skills := extract_skills tokenize skillSet text }

/-- `compute_text_similarity` from `app/main.py`, with the TF-IDF cosine
pipeline of scikit-learn as the `cosine` collaborator parameter: zero when
either cleaned text is empty, otherwise the collaborator's score on the two
cleaned texts. -/
def compute_text_similarity (cosine : String → String → ℚ)
    (resume_text job_text : String) : ℚ :=
  let resume_clean := clean_text resume_text
  let job_clean := clean_text job_text
  if resume_clean = "" ∨ job_clean = "" then 0
  else cosine resume_clean job_clean

/-- The `AnalyzeResponse` record of `app/main.py`. -/
structure AnalyzeResponse where
  overall_match_score : ℚ
  skill_match_percentage : ℚ
  text_similarity_score : ℚ
  resume_profile : ResumeProfile
  job_profile : JobProfile
  skills_match : SkillsMatch
  notes : Option String

/-- `run_analysis` from `app/main.py`: build both profiles, match skills,
compute the percentage, the similarity, the combined score and the notes. -/
def run_analysis (tokenize : String → Finset String) (cosine : String → String → ℚ)
    (skillSet : Finset String) (resume_text job_description_text : String) :
    AnalyzeResponse :=
  let resume_profile := build_resume_profile tokenize skillSet resume_text
  let job_profile := build_job_profile tokenize skillSet job_description_text
  let resume_skills := resume_profile.skills
  let job_skills := job_profile.required_skills
  let skills_match := compute_skill_match resume_skills job_skills
  let pct := skill_match_pct skills_match.matched_skills job_skills
  let text_sim := compute_text_similarity cosine resume_text job_description_text
  let overall_score := combine_scores text_sim pct
  let notes_parts :=
    (if skills_match.missing_skills ≠ [] then
      ["Consider learning or explicitly mentioning these skills: " ++
        joinSep ", " skills_match.missing_skills ++ "."]
     else []) ++
    [if overall_score < 50 then
      "Overall match is low. You may need to tailor your resume more closely to this role."
     else if overall_score < 75 then
      "Decent match. Highlight key relevant projects and skills to strengthen your application."
     else
      "Strong match. Ensure your achievements are quantified and clearly described."]
  let notes := if notes_parts ≠ [] then some (joinSep " " notes_parts) else none
  { overall_match_score := overall_score
    skill_match_percentage := pct
    text_similarity_score := pyRound3 text_sim
    resume_profile := resume_profile
    job_profile := job_profile
    skills_match := skills_match
    notes := notes }

/-- `extract_text` from `app/file_utils.py`, with the PDF and DOCX backends as
parameters; `Except.error` models the raised `ValueError`. -/
def extract_text (extract_pdf extract_docx : String → String)
    (file_path : String) : Except String String :=
  let path_lower := pyToLower file_path
  if ".pdf".data <:+ path_lower.data then Except.ok (extract_pdf file_path)
  else if ".docx".data <:+ path_lower.data then Except.ok (extract_docx file_path)
  else Except.error "Unsupported file type. Please upload a PDF or DOCX resume."

/-! ### Rounding helpers -/

theorem pyRound2_natCast (n : ℕ) : pyRound2 (n : ℚ) = n := by
  unfold pyRound2
  rw [show ((n : ℚ) * 100) = ((n * 100 : ℕ) : ℚ) by push_cast; ring, round_natCast]
  push_cast
  ring

theorem round_q_mono {x y : ℚ} (h : x ≤ y) : round x ≤ round y := by
  rw [round_eq, round_eq]
  exact Int.floor_le_floor (by linarith)

theorem pyRound2_nonneg {x : ℚ} (h : 0 ≤ x) : 0 ≤ pyRound2 x := by
  unfold pyRound2
  have h1 : (0 : ℤ) ≤ round (x * 100) := by
    have := round_q_mono (show (0 : ℚ) ≤ x * 100 by nlinarith)
    simpa using this
  have h2 : (0 : ℚ) ≤ ((round (x * 100) : ℤ) : ℚ) := by exact_mod_cast h1
  linarith

theorem pyRound2_le_100 {x : ℚ} (h : x ≤ 100) : pyRound2 x ≤ 100 := by
  unfold pyRound2
  have h1 : round (x * 100) ≤ (10000 : ℤ) := by
    have := round_q_mono (show x * 100 ≤ ((10000 : ℕ) : ℚ) by push_cast; nlinarith)
    rwa [round_natCast] at this
  have h2 : ((round (x * 100) : ℤ) : ℚ) ≤ 10000 := by exact_mod_cast h1
  linarith

theorem pyRound3_nonneg {x : ℚ} (h : 0 ≤ x) : 0 ≤ pyRound3 x := by
  unfold pyRound3
  have h1 : (0 : ℤ) ≤ round (x * 1000) := by
    have := round_q_mono (show (0 : ℚ) ≤ x * 1000 by nlinarith)
    simpa using this
  have h2 : (0 : ℚ) ≤ ((round (x * 1000) : ℤ) : ℚ) := by exact_mod_cast h1
  linarith

theorem pyRound3_le_one {x : ℚ} (h : x ≤ 1) : pyRound3 x ≤ 1 := by
  unfold pyRound3
  have h1 : round (x * 1000) ≤ (1000 : ℤ) := by
    have := round_q_mono (show x * 1000 ≤ ((1000 : ℕ) : ℚ) by push_cast; nlinarith)
    rwa [round_natCast] at this
  have h2 : ((round (x * 1000) : ℤ) : ℚ) ≤ 1000 := by exact_mod_cast h1
  linarith

/-! ### Claim theorems: scoring -/

/-- C2: `combine_scores` computes exactly the documented fixed-weight formula
`round(100 * (0.6 * skill_match_pct / 100 + 0.4 * text_similarity), 2)` on the
documented domain, and in particular `combine_scores 0.5 50 = 50`. -/
theorem combine_scores_formula :
    (∀ s p : ℚ, 0 ≤ s → s ≤ 1 → 0 ≤ p → p ≤ 100 →
      combine_scores s p = pyRound2 (100 * (0.6 * p / 100 + 0.4 * s))) ∧
    combine_scores 0.5 50 = 50 := by
  constructor
  · intro s p _ _ _ _
    show pyRound2 ((0.6 * (p / 100) + 0.4 * s) * 100) = _
    congr 1
    ring
  · show pyRound2 ((0.6 * ((50 : ℚ) / 100) + 0.4 * 0.5) * 100) = 50
    rw [show (0.6 * ((50 : ℚ) / 100) + 0.4 * 0.5) * 100 = ((50 : ℕ) : ℚ) by norm_num,
      pyRound2_natCast]
    norm_num

/-- Closed-instance witness for `combine_scores_formula`. -/
theorem combine_scores_formula_witness :
    combine_scores 0.5 50 = pyRound2 (100 * (0.6 * 50 / 100 + 0.4 * 0.5)) :=
  combine_scores_formula.1 0.5 50 (by norm_num) (by norm_num) (by norm_num) (by norm_num)

/-- C3: the skill-match percentage is `0` on an empty requirement list (in
particular not `100`), otherwise the rounded coverage percentage
`round(100 * |matched| / |job|, 2)`; with 2 matched of 4 required it is 50. -/
theorem skill_match_pct_spec :
    (∀ matched : List String,
      skill_match_pct matched [] = 0 ∧ skill_match_pct matched [] ≠ 100) ∧
    (∀ matched job : List String, job ≠ [] →
      skill_match_pct matched job =
        pyRound2 (100 * (matched.length : ℚ) / (job.length : ℚ))) ∧
    (∀ matched job : List String, matched.length = 2 → job.length = 4 →
      skill_match_pct matched job = 50) := by
  refine ⟨?_, ?_, ?_⟩
  · intro m
    constructor <;> simp [skill_match_pct]
  · intro m j h
    simp [skill_match_pct, h]
  · intro m j hm hj
    have hne : j ≠ [] := by
      intro he
      rw [he] at hj
      simp at hj
    simp only [skill_match_pct, if_pos hne, hm, hj]
    rw [show 100 * ((2 : ℕ) : ℚ) / ((4 : ℕ) : ℚ) = ((50 : ℕ) : ℚ) by norm_num,
      pyRound2_natCast]
    norm_num

/-- Closed-instance witness for `skill_match_pct_spec`. -/
theorem skill_match_pct_spec_witness :
    skill_match_pct ["python", "sql"] ["python", "sql", "aws", "gcp"] = 50 :=
  skill_match_pct_spec.2.2 ["python", "sql"] ["python", "sql", "aws", "gcp"] rfl rfl

/-- C1: `compute_skill_match A B` returns `matched = A ∩ B`,
`missing = B \ A`, `extra = A \ B` as sorted duplicate-free lists, and its
output depends only on the sets of the inputs, not on their order; the empty
cases are covered by the universal quantification. -/
theorem compute_skill_match_spec (A B : List String) :
    ((compute_skill_match A B).matched_skills.toFinset = A.toFinset ∩ B.toFinset ∧
     (compute_skill_match A B).missing_skills.toFinset = B.toFinset \ A.toFinset ∧
     (compute_skill_match A B).extra_resume_skills.toFinset = A.toFinset \ B.toFinset) ∧
    ((compute_skill_match A B).matched_skills.Sorted (· ≤ ·) ∧
     (compute_skill_match A B).matched_skills.Nodup ∧
     (compute_skill_match A B).missing_skills.Sorted (· ≤ ·) ∧
     (compute_skill_match A B).missing_skills.Nodup ∧
     (compute_skill_match A B).extra_resume_skills.Sorted (· ≤ ·) ∧
     (compute_skill_match A B).extra_resume_skills.Nodup) ∧
    (∀ A' B' : List String, A.Perm A' → B.Perm B' →
      compute_skill_match A' B' = compute_skill_match A B) := by
  refine ⟨⟨?_, ?_, ?_⟩, ⟨?_, ?_, ?_, ?_, ?_, ?_⟩, ?_⟩
  · simp [compute_skill_match, Finset.sort_toFinset]
  · simp [compute_skill_match, Finset.sort_toFinset]
  · simp [compute_skill_match, Finset.sort_toFinset]
  · show List.Sorted (· ≤ ·) (Finset.sort (· ≤ ·) (A.toFinset ∩ B.toFinset))
    exact Finset.sort_sorted _ _
  · show (Finset.sort (· ≤ ·) (A.toFinset ∩ B.toFinset)).Nodup
    exact Finset.sort_nodup _ _
  · show List.Sorted (· ≤ ·) (Finset.sort (· ≤ ·) (B.toFinset \ A.toFinset))
    exact Finset.sort_sorted _ _
  · show (Finset.sort (· ≤ ·) (B.toFinset \ A.toFinset)).Nodup
    exact Finset.sort_nodup _ _
  · show List.Sorted (· ≤ ·) (Finset.sort (· ≤ ·) (A.toFinset \ B.toFinset))
    exact Finset.sort_sorted _ _
  · show (Finset.sort (· ≤ ·) (A.toFinset \ B.toFinset)).Nodup
    exact Finset.sort_nodup _ _
  · intro A' B' hA hB
    simp only [compute_skill_match]
    rw [List.toFinset_eq_of_perm A A' hA, List.toFinset_eq_of_perm B B' hB]

/-- Closed-instance witness for `compute_skill_match_spec`: order-independence
at a concrete pair of inputs. -/
theorem compute_skill_match_spec_witness :
    compute_skill_match ["b", "a"] ["c", "a"] = compute_skill_match ["a", "b"] ["a", "c"] :=
  (compute_skill_match_spec ["a", "b"] ["a", "c"]).2.2 ["b", "a"] ["c", "a"]
    (by decide) (by decide)

/-- C10: `extract_text` raises the `ValueError` exactly when the lowercased
path ends in neither `.pdf` nor `.docx` (extension matching is
case-insensitive); a `.pdf` path dispatches to the PDF backend, and a
non-`.pdf` `.docx` path to the DOCX backend. -/
theorem extract_text_spec (fpdf fdocx : String → String) (p : String) :
    (extract_text fpdf fdocx p =
        Except.error "Unsupported file type. Please upload a PDF or DOCX resume." ↔
      ¬ ".pdf".data <:+ (pyToLower p).data ∧ ¬ ".docx".data <:+ (pyToLower p).data) ∧
    (".pdf".data <:+ (pyToLower p).data →
      extract_text fpdf fdocx p = Except.ok (fpdf p)) ∧
    (¬ ".pdf".data <:+ (pyToLower p).data → ".docx".data <:+ (pyToLower p).data →
      extract_text fpdf fdocx p = Except.ok (fdocx p)) := by
  simp only [extract_text]
  split_ifs with h1 h2 <;> simp_all

/-- Closed-instance witness for `extract_text_spec`: case-insensitive `.docx`
dispatch. -/
theorem extract_text_spec_witness :
    extract_text (fun _ => "P") (fun _ => "D") "CV.Docx" = Except.ok "D" :=
  (extract_text_spec (fun _ => "P") (fun _ => "D") "CV.Docx").2.2 (by decide) (by decide)

/-- C7: the output of `extract_skills` is always a subset of the vocabulary,
sorted in natural string order and duplicate-free, and empty input yields the
empty list. -/
theorem extract_skills_spec (tokenize : String → Finset String)
    (skillSet : Finset String) (text : String) :
    (∀ s ∈ extract_skills tokenize skillSet text, s ∈ skillSet) ∧
    (extract_skills tokenize skillSet text).Sorted (· ≤ ·) ∧
    (extract_skills tokenize skillSet text).Nodup ∧
    extract_skills tokenize skillSet "" = [] := by
  refine ⟨?_, ?_, ?_, by simp [extract_skills]⟩
  · intro s hs
    unfold extract_skills at hs
    split_ifs at hs with h
    · simp at hs
    · rw [Finset.mem_sort] at hs
      rcases Finset.mem_union.1 hs with h' | h'
      · exact Finset.filter_subset _ _ h'
      · exact Finset.filter_subset _ _ h'
  · unfold extract_skills
    split_ifs with h
    · simp
    · exact Finset.sort_sorted _ _
  · unfold extract_skills
    split_ifs with h
    · simp
    · exact Finset.sort_nodup _ _

/-- Closed-instance witness for `extract_skills_spec`. -/
theorem extract_skills_spec_witness :
    "python" ∈ ({"python"} : Finset String) :=
  (extract_skills_spec (fun _ => ∅) {"python"} "python").1 "python"
    (by simp +decide [extract_skills, Finset.filter_singleton, Finset.sort_singleton])

/-- C9: whenever every token the tokenizer produces from the normalized text
is a contiguous substring of that text, the token-match step of
`extract_skills` adds nothing: the function agrees with its phrase-match-only
variant. -/
theorem extract_skills_token_step_redundant (tokenize : String → Finset String)
    (skillSet : Finset String) (text : String)
    (htok : ∀ t ∈ tokenize (pyToLower (clean_text text)),
      t.data <:+: (pyToLower (clean_text text)).data) :
    extract_skills tokenize skillSet text = extract_skills_phrase_only skillSet text := by
  rcases eq_or_ne text "" with he | he
  · subst he
    simp [extract_skills, extract_skills_phrase_only]
  · have hsub :
        (skillSet.filter fun skill =>
            ¬ ' ' ∈ skill.data ∧ skill ∈ tokenize (pyToLower (clean_text text))) ⊆
          skillSet.filter fun skill =>
            skill.data <:+: (pyToLower (clean_text text)).data := by
      intro s hs
      rw [Finset.mem_filter] at hs ⊢
      exact ⟨hs.1, htok s hs.2.2⟩
    simp only [extract_skills, extract_skills_phrase_only, if_neg he]
    rw [Finset.union_eq_left.2 hsub]

/-- Closed-instance witness for `extract_skills_token_step_redundant`. -/
theorem extract_skills_token_step_redundant_witness :
    extract_skills (fun _ => ∅) {"python"} "python" =
      extract_skills_phrase_only {"python"} "python" :=
  extract_skills_token_step_redundant (fun _ => ∅) {"python"} "python" (by simp)

/-! ### C4: bounds of the analysis result -/

theorem skill_match_pct_bounds (m j : List String) (h : m.length ≤ j.length) :
    0 ≤ skill_match_pct m j ∧ skill_match_pct m j ≤ 100 := by
  unfold skill_match_pct
  split_ifs with hj
  · constructor
    · apply pyRound2_nonneg
      positivity
    · apply pyRound2_le_100
      have hj0 : j.length ≠ 0 := by simpa [List.length_eq_zero] using hj
      have hjq : 0 < (j.length : ℚ) := by exact_mod_cast Nat.pos_of_ne_zero hj0
      rw [div_le_iff₀ hjq]
      have hm : (m.length : ℚ) ≤ (j.length : ℚ) := by exact_mod_cast h
      nlinarith
  · norm_num

theorem combine_scores_bounds {s p : ℚ} (hs0 : 0 ≤ s) (hs1 : s ≤ 1)
    (hp0 : 0 ≤ p) (hp1 : p ≤ 100) :
    0 ≤ combine_scores s p ∧ combine_scores s p ≤ 100 := by
  show 0 ≤ pyRound2 ((0.6 * (p / 100) + 0.4 * s) * 100) ∧
    pyRound2 ((0.6 * (p / 100) + 0.4 * s) * 100) ≤ 100
  constructor
  · apply pyRound2_nonneg
    nlinarith
  · apply pyRound2_le_100
    nlinarith

theorem matched_length_le (A B : List String) :
    (compute_skill_match A B).matched_skills.length ≤ B.length := by
  show (Finset.sort (· ≤ ·) (A.toFinset ∩ B.toFinset)).length ≤ B.length
  rw [Finset.length_sort]
  calc (A.toFinset ∩ B.toFinset).card
      ≤ B.toFinset.card := Finset.card_le_card Finset.inter_subset_right
    _ ≤ B.length := B.toFinset_card_le

theorem compute_text_similarity_bounds (cosine : String → String → ℚ)
    (hcos : ∀ a b, 0 ≤ cosine a b ∧ cosine a b ≤ 1) (rt jt : String) :
    0 ≤ compute_text_similarity cosine rt jt ∧
      compute_text_similarity cosine rt jt ≤ 1 := by
  simp only [compute_text_similarity]
  split_ifs with h
  · norm_num
  · exact hcos _ _

/-- C4: for every pair of input texts, provided the similarity collaborator
returns values in `[0, 1]`, the analysis result satisfies
`overall_match_score ∈ [0, 100]`, `skill_match_percentage ∈ [0, 100]` and
`text_similarity_score ∈ [0, 1]`. -/
theorem run_analysis_bounds (tokenize : String → Finset String)
    (cosine : String → String → ℚ) (skillSet : Finset String)
    (resume_text job_text : String)
    (hcos : ∀ a b, 0 ≤ cosine a b ∧ cosine a b ≤ 1) :
    (0 ≤ (run_analysis tokenize cosine skillSet resume_text job_text).overall_match_score ∧
      (run_analysis tokenize cosine skillSet resume_text job_text).overall_match_score ≤ 100) ∧
    (0 ≤ (run_analysis tokenize cosine skillSet resume_text job_text).skill_match_percentage ∧
      (run_analysis tokenize cosine skillSet resume_text job_text).skill_match_percentage ≤ 100) ∧
    (0 ≤ (run_analysis tokenize cosine skillSet resume_text job_text).text_similarity_score ∧
      (run_analysis tokenize cosine skillSet resume_text job_text).text_similarity_score ≤ 1) := by
  have hsim := compute_text_similarity_bounds cosine hcos resume_text job_text
  have hpct := skill_match_pct_bounds
    (compute_skill_match (extract_skills tokenize skillSet resume_text)
      (extract_skills tokenize skillSet job_text)).matched_skills
    (extract_skills tokenize skillSet job_text)
    (matched_length_le _ _)
  refine ⟨?_, ?_, ?_⟩
  · show 0 ≤ combine_scores (compute_text_similarity cosine resume_text job_text)
        (skill_match_pct
          (compute_skill_match (extract_skills tokenize skillSet resume_text)
            (extract_skills tokenize skillSet job_text)).matched_skills
          (extract_skills tokenize skillSet job_text)) ∧ _ ≤ 100
    exact combine_scores_bounds hsim.1 hsim.2 hpct.1 hpct.2
  · exact hpct
  · show 0 ≤ pyRound3 (compute_text_similarity cosine resume_text job_text) ∧
      pyRound3 (compute_text_similarity cosine resume_text job_text) ≤ 1
    exact ⟨pyRound3_nonneg hsim.1, pyRound3_le_one hsim.2⟩

/-- Closed-instance witness for `run_analysis_bounds`. -/
theorem run_analysis_bounds_witness :
    (0 ≤ (run_analysis (fun _ => ∅) (fun _ _ => 1 / 2) ∅ "a" "b").overall_match_score ∧
      (run_analysis (fun _ => ∅) (fun _ _ => 1 / 2) ∅ "a" "b").overall_match_score ≤ 100) ∧
    (0 ≤ (run_analysis (fun _ => ∅) (fun _ _ => 1 / 2) ∅ "a" "b").skill_match_percentage ∧
      (run_analysis (fun _ => ∅) (fun _ _ => 1 / 2) ∅ "a" "b").skill_match_percentage ≤ 100) ∧
    (0 ≤ (run_analysis (fun _ => ∅) (fun _ _ => 1 / 2) ∅ "a" "b").text_similarity_score ∧
      (run_analysis (fun _ => ∅) (fun _ _ => 1 / 2) ∅ "a" "b").text_similarity_score ≤ 1) :=
  run_analysis_bounds (fun _ => ∅) (fun _ _ => 1 / 2) ∅ "a" "b"
    (fun _ _ => by norm_num)

/-! ### C6: notes of the analysis -/

theorem empty_append_str (s : String) : "" ++ s = s := by
  cases s
  rfl

/-- C6: for every analysis, the notes begin with the missing-skills message
exactly when the missing set is non-empty, are followed by exactly one
score-tier message selected by the overall score (`< 50` low, `< 75`
moderate, otherwise strong), and are therefore never absent. -/
theorem run_analysis_notes (tokenize : String → Finset String)
    (cosine : String → String → ℚ) (skillSet : Finset String)
    (resume_text job_text : String) :
    (run_analysis tokenize cosine skillSet resume_text job_text).notes =
      some
        ((if (run_analysis tokenize cosine skillSet resume_text job_text).skills_match.missing_skills ≠ [] then
            "Consider learning or explicitly mentioning these skills: " ++
              joinSep ", "
                (run_analysis tokenize cosine skillSet resume_text job_text).skills_match.missing_skills ++
              "." ++ " "
          else "") ++
          (if (run_analysis tokenize cosine skillSet resume_text job_text).overall_match_score < 50 then
            "Overall match is low. You may need to tailor your resume more closely to this role."
          else if (run_analysis tokenize cosine skillSet resume_text job_text).overall_match_score < 75 then
            "Decent match. Highlight key relevant projects and skills to strengthen your application."
          else
            "Strong match. Ensure your achievements are quantified and clearly described.")) := by
  simp only [run_analysis]
  by_cases h1 :
    (compute_skill_match (build_resume_profile tokenize skillSet resume_text).skills
      (build_job_profile tokenize skillSet job_text).required_skills).missing_skills = []
  · simp only [h1, ne_eq, not_true_eq_false, if_false, List.nil_append,
      List.cons_ne_nil, not_false_eq_true, if_true]
    split_ifs <;> simp [joinSep, empty_append_str]
  · simp only [ne_eq, h1, not_false_eq_true, if_true, List.cons_append,
      List.nil_append, List.cons_ne_nil]
    split_ifs <;> simp [joinSep]

/-! ### C8: properties of `clean_text` -/

theorem collapse_mem : ∀ (l : List Char), ∀ c ∈ collapseSpaces l,
    c = ' ' ∨ (c ∈ l ∧ isPySpace c = false)
  | [] => by simp [collapseSpaces]
  | [d] => by
    by_cases hd : isPySpace d <;> simp_all [collapseSpaces]
  | c1 :: c2 :: rest => by
    intro c hc
    by_cases h12 : (isPySpace c1 && isPySpace c2) = true
    · rw [show collapseSpaces (c1 :: c2 :: rest) =
          collapseSpaces (c2 :: rest) by simp [collapseSpaces, h12]] at hc
      rcases collapse_mem (c2 :: rest) c hc with h | ⟨hm, hs⟩
      · exact Or.inl h
      · exact Or.inr ⟨List.mem_cons_of_mem _ hm, hs⟩
    · rw [show collapseSpaces (c1 :: c2 :: rest) =
          (if isPySpace c1 then ' ' else c1) :: collapseSpaces (c2 :: rest) by
            simp [collapseSpaces, h12]] at hc
      rcases List.mem_cons.1 hc with h | h
      · by_cases h1 : isPySpace c1
        · rw [if_pos h1] at h
          exact Or.inl h
        · rw [if_neg h1] at h
          subst h
          exact Or.inr ⟨List.mem_cons_self _ _, by simpa using h1⟩
      · rcases collapse_mem (c2 :: rest) c h with h' | ⟨hm, hs⟩
        · exact Or.inl h'
        · exact Or.inr ⟨List.mem_cons_of_mem _ hm, hs⟩

theorem collapse_head_nonspace {d : Char} (rest : List Char) (hd : isPySpace d = false) :
    ∃ t, collapseSpaces (d :: rest) = d :: t := by
  cases rest with
  | nil => exact ⟨[], by simp [collapseSpaces, hd]⟩
  | cons c2 r2 => exact ⟨collapseSpaces (c2 :: r2), by simp [collapseSpaces, hd]⟩

theorem collapse_chain : ∀ (l : List Char),
    (collapseSpaces l).Chain' fun a b => ¬(isPySpace a = true ∧ isPySpace b = true)
  | [] => by simp [collapseSpaces]
  | [d] => by by_cases hd : isPySpace d <;> simp [collapseSpaces, hd]
  | c1 :: c2 :: rest => by
    by_cases h12 : (isPySpace c1 && isPySpace c2) = true
    · rw [show collapseSpaces (c1 :: c2 :: rest) =
          collapseSpaces (c2 :: rest) by simp [collapseSpaces, h12]]
      exact collapse_chain (c2 :: rest)
    · rw [show collapseSpaces (c1 :: c2 :: rest) =
          (if isPySpace c1 then ' ' else c1) :: collapseSpaces (c2 :: rest) by
            simp [collapseSpaces, h12]]
      rw [List.chain'_cons']
      refine ⟨?_, collapse_chain (c2 :: rest)⟩
      intro b hb
      by_cases h1 : isPySpace c1
      · have h2 : isPySpace c2 = false := by
          cases hc2 : isPySpace c2 <;> simp_all
        obtain ⟨t, ht⟩ := collapse_head_nonspace (d := c2) rest h2
        rw [ht] at hb
        simp only [List.head?_cons, Option.mem_def, Option.some.injEq] at hb
        subst hb
        simp [h2]
      · simp [h1]

theorem collapse_fixed : ∀ (l : List Char),
    (l.Chain' fun a b => ¬(isPySpace a = true ∧ isPySpace b = true)) →
    (∀ c ∈ l, isPySpace c = true → c = ' ') → collapseSpaces l = l
  | [] => by simp [collapseSpaces]
  | [d] => by
    intro _ hall
    by_cases hd : isPySpace d
    · have hbl := hall d (by simp) hd
      simp [collapseSpaces, hd, hbl]
    · simp [collapseSpaces, hd]
  | c1 :: c2 :: rest => by
    intro hch hall
    obtain ⟨hr, hch'⟩ := List.chain'_cons.1 hch
    have hcond : ¬((isPySpace c1 && isPySpace c2) = true) := by
      cases ha : isPySpace c1 <;> cases hb : isPySpace c2 <;> simp_all
    have htail : collapseSpaces (c2 :: rest) = c2 :: rest :=
      collapse_fixed (c2 :: rest) hch' fun c hc h => hall c (List.mem_cons_of_mem _ hc) h
    rw [show collapseSpaces (c1 :: c2 :: rest) =
        (if isPySpace c1 then ' ' else c1) :: collapseSpaces (c2 :: rest) by
          simp [collapseSpaces, hcond]]
    rw [htail]
    by_cases h1 : isPySpace c1
    · rw [if_pos h1, hall c1 (List.mem_cons_self _ _) h1]
    · rw [if_neg h1]

theorem dropWhile_eq_self_of_head (p : Char → Bool) (l : List Char)
    (h : ∀ c, l.head? = some c → p c = false) : l.dropWhile p = l := by
  cases l with
  | nil => rfl
  | cons c t => exact List.dropWhile_cons_of_neg (by simp [h c rfl])

theorem pyStrip_fixed (l : List Char)
    (hh : ∀ c, l.head? = some c → isPySpace c = false)
    (hl : ∀ c, l.getLast? = some c → isPySpace c = false) : pyStrip l = l := by
  unfold pyStrip
  rw [dropWhile_eq_self_of_head _ l hh]
  rw [dropWhile_eq_self_of_head _ l.reverse
    (fun c hc => hl c (by rwa [List.head?_reverse] at hc))]
  exact List.reverse_reverse l

theorem pyStrip_inf (l : List Char) : pyStrip l <:+: l := by
  obtain ⟨s, hs⟩ := List.dropWhile_suffix (l := l) fun c => isPySpace c
  obtain ⟨t, ht⟩ :=
    List.dropWhile_suffix (l := (l.dropWhile fun c => isPySpace c).reverse)
      fun c => isPySpace c
  refine ⟨s, t.reverse, ?_⟩
  have hm : pyStrip l ++ t.reverse = l.dropWhile fun c => isPySpace c := by
    have h2 := congrArg List.reverse ht
    simpa [pyStrip, List.reverse_append] using h2
  rw [List.append_assoc, hm, hs]

theorem head?_dropWhile_false (p : Char → Bool) (l : List Char) {c : Char}
    (h : (l.dropWhile p).head? = some c) : p c = false := by
  have hne : l.dropWhile p ≠ [] := by
    intro he
    rw [he] at h
    simp at h
  have h2 := List.head_dropWhile_not p l hne
  rw [List.head?_eq_head hne] at h
  have h3 : (l.dropWhile p).head hne = c := Option.some.inj h
  rw [h3] at h2
  simpa using h2

theorem pyStrip_head (l : List Char) {c : Char}
    (h : (pyStrip l).head? = some c) : isPySpace c = false := by
  unfold pyStrip at h
  rw [List.head?_reverse] at h
  have hne : ((l.dropWhile fun d => isPySpace d).reverse.dropWhile fun d => isPySpace d) ≠ [] := by
    intro he
    rw [he] at h
    simp at h
  obtain ⟨t, ht⟩ :=
    List.dropWhile_suffix (l := (l.dropWhile fun d => isPySpace d).reverse)
      fun d => isPySpace d
  have hX : ((l.dropWhile fun d => isPySpace d).reverse).getLast? = some c := by
    rw [← ht, List.getLast?_append, h]
    rfl
  rw [List.getLast?_reverse] at hX
  exact head?_dropWhile_false _ _ hX

theorem pyStrip_getLast (l : List Char) {c : Char}
    (h : (pyStrip l).getLast? = some c) : isPySpace c = false := by
  unfold pyStrip at h
  rw [List.getLast?_reverse] at h
  exact head?_dropWhile_false _ _ h

theorem map_self_of_fixed {f : Char → Char} : ∀ (l : List Char),
    (∀ c ∈ l, f c = c) → l.map f = l
  | [] => fun _ => rfl
  | c :: t => fun h => by
    rw [List.map_cons, h c (by simp), map_self_of_fixed t fun d hd => h d (by simp [hd])]

theorem normalized_invariants (l : List Char) :
    (∀ c ∈ pyStrip (collapseSpaces l), c = ' ' ∨ isPySpace c = false) ∧
    ((pyStrip (collapseSpaces l)).Chain' fun a b =>
      ¬(isPySpace a = true ∧ isPySpace b = true)) ∧
    (∀ c, (pyStrip (collapseSpaces l)).head? = some c → isPySpace c = false) ∧
    (∀ c, (pyStrip (collapseSpaces l)).getLast? = some c → isPySpace c = false) := by
  refine ⟨?_, ?_, ?_, ?_⟩
  · intro c hc
    have hc' : c ∈ collapseSpaces l := (List.IsInfix.sublist (pyStrip_inf _)).subset hc
    rcases collapse_mem _ c hc' with h | ⟨_, hs⟩
    · exact Or.inl h
    · exact Or.inr hs
  · exact List.Chain'.infix (collapse_chain l) (pyStrip_inf _)
  · exact fun c h => pyStrip_head _ h
  · exact fun c h => pyStrip_getLast _ h

/-- C8: `clean_text` is idempotent; its output contains no carriage return or
newline, every whitespace character of the output is a single space and no two
adjacent characters are both whitespace (so no whitespace run survives), and
the output has no leading or trailing whitespace; empty or absent input
normalizes to the empty string. -/
theorem clean_text_spec (text : String) :
    clean_text (clean_text text) = clean_text text ∧
    (∀ c ∈ (clean_text text).data, isPySpace c = true → c = ' ') ∧
    '\r' ∉ (clean_text text).data ∧ '\n' ∉ (clean_text text).data ∧
    ((clean_text text).data.Chain' fun a b =>
      ¬(isPySpace a = true ∧ isPySpace b = true)) ∧
    (∀ c, (clean_text text).data.head? = some c → isPySpace c = false) ∧
    (∀ c, (clean_text text).data.getLast? = some c → isPySpace c = false) ∧
    clean_text "" = "" ∧ clean_text_opt none = "" := by
  by_cases he : text = ""
  · subst he
    have h0 : clean_text "" = "" := by simp [clean_text]
    rw [h0]
    have hnil : ("" : String).data = [] := rfl
    refine ⟨h0, ?_, ?_, ?_, ?_, ?_, ?_, h0, rfl⟩
    · intro c hc
      rw [hnil] at hc
      simp at hc
    · decide
    · decide
    · decide
    · intro c hc
      rw [hnil] at hc
      simp at hc
    · intro c hc
      rw [hnil] at hc
      simp at hc
  · have hdata : (clean_text text).data =
        pyStrip (collapseSpaces ((text.data.map fun c => if c = '\r' then ' ' else c).map
          fun c => if c = '\n' then ' ' else c)) := by
      simp only [clean_text, if_neg he]
    obtain ⟨hmem, hch, hhd, hlast⟩ := normalized_invariants
      ((text.data.map fun c => if c = '\r' then ' ' else c).map
        fun c => if c = '\n' then ' ' else c)
    rw [← hdata] at hmem hch hhd hlast
    have hblank : ∀ c ∈ (clean_text text).data, isPySpace c = true → c = ' ' := by
      intro c hc hs
      rcases hmem c hc with h | h
      · exact h
      · rw [h] at hs
        cases hs
    have hcr : '\r' ∉ (clean_text text).data := by
      intro hc
      exact absurd (hblank _ hc (by decide)) (by decide)
    have hnl : '\n' ∉ (clean_text text).data := by
      intro hc
      exact absurd (hblank _ hc (by decide)) (by decide)
    refine ⟨?_, hblank, hcr, hnl, hch, hhd, hlast, by simp [clean_text], rfl⟩
    by_cases hu0 : clean_text text = ""
    · rw [hu0]
      simp [clean_text]
    · have h1 : (clean_text text).data.map (fun c => if c = '\r' then ' ' else c) =
          (clean_text text).data :=
        map_self_of_fixed _ fun c hc => by
          have hne : c ≠ '\r' := fun hr => hcr (hr ▸ hc)
          simp [hne]
      have h2 : ((clean_text text).data.map fun c => if c = '\r' then ' ' else c).map
          (fun c => if c = '\n' then ' ' else c) = (clean_text text).data := by
        rw [h1]
        exact map_self_of_fixed _ fun c hc => by
          have hne : c ≠ '\n' := fun hr => hnl (hr ▸ hc)
          simp [hne]
      have h3 : collapseSpaces (clean_text text).data = (clean_text text).data :=
        collapse_fixed _ hch hblank
      have h4 : pyStrip (clean_text text).data = (clean_text text).data :=
        pyStrip_fixed _ hhd hlast
      obtain ⟨u, hu⟩ : ∃ u, clean_text text = u := ⟨_, rfl⟩
      rw [hu] at hu0 h2 h3 h4 ⊢
      simp only [clean_text, if_neg hu0, h2, h3, h4]

/-- Closed-instance witness for `clean_text_spec`. -/
theorem clean_text_spec_witness :
    isPySpace 'a' = false ∧ clean_text "  a\t\r\n b " = "a b" :=
  ⟨(clean_text_spec "  a\t\r\n b ").2.2.2.2.2.1 'a' (by decide), by decide⟩

/-! ### C5: the year estimator -/

theorem space_not_digit {c : Char} (h : isPySpace c = true) : isAsciiDigit c = false := by
  simp only [isPySpace, Bool.or_eq_true, decide_eq_true_eq, Bool.and_eq_true] at h
  casesm* _ ∨ _
  all_goals rename_i h
  all_goals
    first
      | (subst h; decide)
      | (have h9 : ¬ (c ≤ '9') := fun hle => absurd (le_trans h.1 hle) (by decide)
         simp [isAsciiDigit]
         exact fun _ => not_le.mp h9)

theorem matchWord_decomp {l rem : List Char} (h : matchWord l = some rem) :
    ∃ w, l = w ++ rem ∧ (∀ c ∈ w, isAsciiDigit c = false) ∧ w ≠ [] := by
  unfold matchWord at h
  split at h
  · obtain rfl := Option.some.inj h
    exact ⟨['y', 'e', 'a', 'r', 's'], rfl, by decide, by decide⟩
  · obtain rfl := Option.some.inj h
    exact ⟨['y', 'e', 'a', 'r'], rfl, by decide, by decide⟩
  · obtain rfl := Option.some.inj h
    exact ⟨['y', 'r', 's'], rfl, by decide, by decide⟩
  · cases h

theorem matchTail_decomp {l rem : List Char} (h : matchTail l = some rem) :
    ∃ pre, l = pre ++ rem ∧ (∀ c ∈ pre, isAsciiDigit c = false) ∧ pre ≠ [] := by
  unfold matchTail at h
  have hsplit : (l.takeWhile fun c => isPySpace c) ++ (l.dropWhile fun c => isPySpace c) = l :=
    List.takeWhile_append_dropWhile _ _
  split at h
  · rename_i r heq
    obtain ⟨w, hw, hwnd, hwne⟩ := matchWord_decomp h
    have hr : (r.takeWhile fun c => isPySpace c) ++ (r.dropWhile fun c => isPySpace c) = r :=
      List.takeWhile_append_dropWhile _ _
    refine ⟨(l.takeWhile fun c => isPySpace c) ++
      '+' :: ((r.takeWhile fun c => isPySpace c) ++ w), ?_, ?_, by simp⟩
    · conv_lhs => rw [← hsplit, heq, ← hr, hw]
      simp [List.append_assoc]
    · intro c hc
      simp only [List.mem_append, List.mem_cons] at hc
      rcases hc with hc | hc | hc
      · exact space_not_digit (List.mem_takeWhile_imp hc)
      · subst hc
        decide
      · rcases hc with hc | hc
        · exact space_not_digit (List.mem_takeWhile_imp hc)
        · exact hwnd c hc
  · obtain ⟨w, hw, hwnd, hwne⟩ := matchWord_decomp h
    refine ⟨(l.takeWhile fun c => isPySpace c) ++ w, ?_, ?_, by simp [hwne]⟩
    · conv_lhs => rw [← hsplit, hw]
      simp [List.append_assoc]
    · intro c hc
      rcases List.mem_append.1 hc with hc | hc
      · exact space_not_digit (List.mem_takeWhile_imp hc)
      · exact hwnd c hc

theorem matchYearAt_none_head {c : Char} (t : List Char) (h : isAsciiDigit c = false) :
    matchYearAt (c :: t) = none := by
  simp [matchYearAt, h]

theorem matchYearAt_decomp {l : List Char} {v : Nat} {rem : List Char}
    (h : matchYearAt l = some (v, rem)) :
    (∃ c1 pre, l = c1 :: (pre ++ rem) ∧ isAsciiDigit c1 = true ∧ v = digitVal c1 ∧
      (∀ c ∈ pre, isAsciiDigit c = false) ∧ pre ≠ []) ∨
    (∃ c1 c2 pre, l = c1 :: c2 :: (pre ++ rem) ∧ isAsciiDigit c1 = true ∧
      isAsciiDigit c2 = true ∧ v = 10 * digitVal c1 + digitVal c2 ∧
      (∀ c ∈ pre, isAsciiDigit c = false) ∧ pre ≠ [] ∧
      matchTail (pre ++ rem) = some rem) := by
  unfold matchYearAt at h
  split at h
  · cases h
  · rename_i c1 rest
    split at h
    · rename_i hd1
      split at h
      · rw [show matchTail [] = none from rfl] at h
        cases h
      · rename_i c2 rest2
        split at h
        · rename_i hd2
          rw [Option.map_eq_some'] at h
          obtain ⟨rm, hrm, hpair⟩ := h
          injection hpair with h1 h2
          subst h1
          subst h2
          obtain ⟨pre, hpre, hnd, hne⟩ := matchTail_decomp hrm
          refine Or.inr ⟨c1, c2, pre, ?_, hd1, hd2, rfl, hnd, hne, ?_⟩
          · rw [hpre]
          · rw [← hpre]
            exact hrm
        · rename_i hd2
          rw [Option.map_eq_some'] at h
          obtain ⟨rm, hrm, hpair⟩ := h
          injection hpair with h1 h2
          subst h1
          subst h2
          obtain ⟨pre, hpre, hnd, hne⟩ := matchTail_decomp hrm
          exact Or.inl ⟨c1, pre, by rw [← hpre], hd1, rfl, hnd, hne⟩
    · cases h

theorem matchYearAt_at_second {c2 : Char} {pre rem : List Char}
    (hd2 : isAsciiDigit c2 = true) (hpre : ∀ c ∈ pre, isAsciiDigit c = false)
    (hne : pre ≠ []) (ht : matchTail (pre ++ rem) = some rem) :
    matchYearAt (c2 :: (pre ++ rem)) = some (digitVal c2, rem) := by
  cases pre with
  | nil => exact absurd rfl hne
  | cons p0 pre' =>
    have hp0 : isAsciiDigit p0 = false := hpre p0 (by simp)
    rw [List.cons_append] at ht ⊢
    simp [matchYearAt, hd2, hp0, ht]

theorem matchYearAt_drop {l : List Char} {v : Nat} {rem : List Char}
    (h : matchYearAt l = some (v, rem)) :
    0 < l.length - rem.length ∧ l.drop (l.length - rem.length) = rem := by
  rcases matchYearAt_decomp h with ⟨c1, pre, hl, _, _, _, _⟩ |
    ⟨c1, c2, pre, hl, _, _, _, _, _, _⟩
  · subst hl
    have hk : (c1 :: (pre ++ rem)).length - rem.length = pre.length + 1 := by
      simp
      omega
    rw [hk]
    refine ⟨by omega, ?_⟩
    rw [show pre.length + 1 = 1 + pre.length by omega]
    rw [show (1 : Nat) + pre.length = pre.length + 1 by omega]
    rw [List.drop_succ_cons]
    exact List.drop_left pre rem
  · subst hl
    have hk : (c1 :: c2 :: (pre ++ rem)).length - rem.length = pre.length + 2 := by
      simp
      omega
    rw [hk]
    refine ⟨by omega, ?_⟩
    rw [show pre.length + 2 = (pre.length + 1) + 1 by omega]
    rw [List.drop_succ_cons, List.drop_succ_cons]
    exact List.drop_left pre rem

theorem matchYearAt_overlap {l : List Char} {v0 w : Nat} {rem0 rem : List Char}
    (h0 : matchYearAt l = some (v0, rem0)) {i : Nat} (hi : 0 < i)
    (hm : matchYearAt (l.drop i) = some (w, rem)) :
    (∃ j, l.drop i = rem0.drop j) ∨ w ≤ v0 := by
  rcases matchYearAt_decomp h0 with ⟨c1, pre, hl, _, _, hnd, _⟩ |
    ⟨c1, c2, pre, hl, _, hd2, hv0, hnd, hne, htail⟩
  · subst hl
    by_cases hik : 1 + pre.length ≤ i
    · left
      obtain ⟨k, rfl⟩ : ∃ k, i = (1 + pre.length) + k := ⟨i - (1 + pre.length), by omega⟩
      refine ⟨k, ?_⟩
      rw [show (1 + pre.length) + k = (pre.length + k) + 1 by omega, List.drop_succ_cons,
        List.drop_append]
    · exfalso
      obtain ⟨k, rfl⟩ : ∃ k, i = k + 1 := ⟨i - 1, by omega⟩
      have hk : k < pre.length := by omega
      have hdrop : (c1 :: (pre ++ rem0)).drop (k + 1) =
          pre[k] :: (pre.drop (k + 1) ++ rem0) := by
        show (pre ++ rem0).drop k = _
        rw [List.drop_append_of_le_length (by omega), List.drop_eq_getElem_cons hk,
          List.cons_append]
      rw [hdrop] at hm
      rw [matchYearAt_none_head _ (hnd _ (pre.getElem_mem hk))] at hm
      cases hm
  · subst hl
    by_cases hik : 2 + pre.length ≤ i
    · left
      obtain ⟨k, rfl⟩ : ∃ k, i = (2 + pre.length) + k := ⟨i - (2 + pre.length), by omega⟩
      refine ⟨k, ?_⟩
      rw [show (2 + pre.length) + k = ((pre.length + k) + 1) + 1 by omega,
        List.drop_succ_cons, List.drop_succ_cons, List.drop_append]
    · by_cases hi1 : i = 1
      · right
        subst hi1
        rw [List.drop_succ_cons, List.drop_zero] at hm
        rw [matchYearAt_at_second hd2 hnd hne htail] at hm
        injection hm with hp
        injection hp with hw hr
        subst hv0
        omega
      · exfalso
        obtain ⟨k, rfl⟩ : ∃ k, i = k + 2 := ⟨i - 2, by omega⟩
        have hk : k < pre.length := by omega
        have hdrop : (c1 :: c2 :: (pre ++ rem0)).drop (k + 2) =
            pre[k] :: (pre.drop (k + 1) ++ rem0) := by
          show (pre ++ rem0).drop k = _
          rw [List.drop_append_of_le_length (by omega), List.drop_eq_getElem_cons hk,
            List.cons_append]
        rw [hdrop] at hm
        rw [matchYearAt_none_head _ (hnd _ (pre.getElem_mem hk))] at hm
        cases hm

theorem findYearAux_invar (f1 : Nat) : ∀ (f2 : Nat) (l : List Char),
    l.length ≤ f1 → l.length ≤ f2 → findYearAux f1 l = findYearAux f2 l := by
  induction f1 with
  | zero =>
    intro f2 l h1 _
    have hl : l = [] := List.length_eq_zero.1 (Nat.le_zero.1 h1)
    subst hl
    cases f2 <;> rfl
  | succ f1' ih =>
    intro f2 l h1 h2
    cases l with
    | nil => cases f2 <;> rfl
    | cons c rest =>
      cases f2 with
      | zero => simp at h2
      | succ f2' =>
        cases hm : matchYearAt (c :: rest) with
        | some vp =>
          obtain ⟨v, rem⟩ := vp
          have hlen := matchYearAt_length hm
          simp only [findYearAux, hm]
          rw [ih f2' rem (by simp at h1 hlen ⊢; omega) (by simp at h2 hlen ⊢; omega)]
        | none =>
          simp only [findYearAux, hm]
          exact ih f2' rest (by simp at h1 ⊢; omega) (by simp at h2 ⊢; omega)

theorem findYearAux_eq {fuel : Nat} {l : List Char} (h : l.length ≤ fuel) :
    findYearAux fuel l = findYearMatches l :=
  findYearAux_invar fuel l.length l h (le_refl _)

theorem findYearAux_nil_iff (fuel : Nat) : ∀ (l : List Char), l.length ≤ fuel →
    (findYearAux fuel l = [] ↔ ∀ i, matchYearAt (l.drop i) = none) := by
  induction fuel with
  | zero =>
    intro l h
    have hl : l = [] := List.length_eq_zero.1 (Nat.le_zero.1 h)
    subst hl
    exact ⟨fun _ i => by rw [List.drop_nil]; rfl, fun _ => rfl⟩
  | succ f ih =>
    intro l h
    cases l with
    | nil => exact ⟨fun _ i => by rw [List.drop_nil]; rfl, fun _ => rfl⟩
    | cons c rest =>
      cases hm : matchYearAt (c :: rest) with
      | some vp =>
        obtain ⟨v, rem⟩ := vp
        simp only [findYearAux, hm]
        refine iff_of_false (by simp) ?_
        intro hall
        have h0 := hall 0
        rw [List.drop_zero, hm] at h0
        cases h0
      | none =>
        simp only [findYearAux, hm]
        rw [ih rest (by simp at h ⊢; omega)]
        constructor
        · intro hall i
          cases i with
          | zero =>
            rw [List.drop_zero]
            exact hm
          | succ i' =>
            rw [List.drop_succ_cons]
            exact hall i'
        · intro hall i
          have := hall (i + 1)
          rwa [List.drop_succ_cons] at this

theorem findYearAux_mem_position (fuel : Nat) : ∀ (l : List Char), l.length ≤ fuel →
    ∀ v ∈ findYearAux fuel l, ∃ i rm, matchYearAt (l.drop i) = some (v, rm) := by
  induction fuel with
  | zero =>
    intro l h
    have hl : l = [] := List.length_eq_zero.1 (Nat.le_zero.1 h)
    subst hl
    simp [findYearAux]
  | succ f ih =>
    intro l h
    cases l with
    | nil => simp [findYearAux]
    | cons c rest =>
      cases hm : matchYearAt (c :: rest) with
      | some vp =>
        obtain ⟨v0, rem0⟩ := vp
        simp only [findYearAux, hm]
        intro v hv
        rcases List.mem_cons.1 hv with rfl | hv'
        · exact ⟨0, rem0, by rw [List.drop_zero]; exact hm⟩
        · have hlen := matchYearAt_length hm
          obtain ⟨i, rm, hi⟩ := ih rem0 (by simp at h hlen ⊢; omega) v hv'
          obtain ⟨hkpos, hk⟩ := matchYearAt_drop hm
          refine ⟨(c :: rest).length - rem0.length + i, rm, ?_⟩
          rw [← List.drop_drop, hk]
          exact hi
      | none =>
        simp only [findYearAux, hm]
        intro v hv
        obtain ⟨i, rm, hi⟩ := ih rest (by simp at h ⊢; omega) v hv
        exact ⟨i + 1, rm, by rwa [List.drop_succ_cons]⟩

theorem findYearAux_position_bound (fuel : Nat) : ∀ (l : List Char), l.length ≤ fuel →
    ∀ i w rm, matchYearAt (l.drop i) = some (w, rm) →
      ∃ v ∈ findYearAux fuel l, w ≤ v := by
  induction fuel with
  | zero =>
    intro l h i w rm hm
    have hl : l = [] := List.length_eq_zero.1 (Nat.le_zero.1 h)
    subst hl
    rw [List.drop_nil] at hm
    cases hm
  | succ f ih =>
    intro l h i w rm hm
    cases l with
    | nil =>
      rw [List.drop_nil] at hm
      cases hm
    | cons c rest =>
      cases hma : matchYearAt (c :: rest) with
      | none =>
        simp only [findYearAux, hma]
        cases i with
        | zero =>
          rw [List.drop_zero, hma] at hm
          cases hm
        | succ i' =>
          rw [List.drop_succ_cons] at hm
          exact ih rest (by simp at h ⊢; omega) i' w rm hm
      | some vp =>
        obtain ⟨v0, rem0⟩ := vp
        simp only [findYearAux, hma]
        by_cases hi0 : i = 0
        · subst hi0
          rw [List.drop_zero, hma] at hm
          injection hm with hp
          injection hp with hw hr
          exact ⟨v0, by simp, by omega⟩
        · rcases matchYearAt_overlap hma (Nat.pos_of_ne_zero hi0) hm with ⟨j, hj⟩ | hle
          · rw [hj] at hm
            have hlen := matchYearAt_length hma
            obtain ⟨v, hv, hwv⟩ := ih rem0 (by simp at h hlen ⊢; omega) j w rm hm
            exact ⟨v, List.mem_cons_of_mem _ hv, hwv⟩
          · exact ⟨v0, by simp, hle⟩

theorem foldl_max_le {vs : List Nat} : ∀ {v w : Nat}, w = v ∨ w ∈ vs →
    w ≤ vs.foldl max v := by
  induction vs with
  | nil =>
    intro v w h
    rcases h with rfl | h
    · exact le_refl _
    · cases h
  | cons x xs ih =>
    intro v w h
    rw [List.foldl_cons]
    rcases h with rfl | h
    · exact le_trans (le_max_left w x) (ih (Or.inl rfl))
    · rcases List.mem_cons.1 h with rfl | h
      · exact le_trans (le_max_right v w) (ih (Or.inl rfl))
      · exact ih (Or.inr h)

theorem foldl_max_mem : ∀ (vs : List Nat) (v : Nat),
    vs.foldl max v = v ∨ vs.foldl max v ∈ vs
  | [], _ => Or.inl rfl
  | x :: xs, v => by
    rw [List.foldl_cons]
    rcases foldl_max_mem xs (max v x) with h | h
    · rcases max_choice v x with h2 | h2
      · exact Or.inl (by rw [h, h2])
      · exact Or.inr (by rw [h, h2]; simp)
    · exact Or.inr (List.mem_cons_of_mem _ h)

/-- C5 (amended): the estimator returns absent exactly when no position of the
normalized text matches the code's pattern `(\d{1,2})\s*\+?\s*(years|year|yrs)`
(which allows optional whitespace between the digits and the optional `+`),
and otherwise returns the maximum digit-group value over all matches (not the
first or last one); on "2 years... later 5+ years" it returns 5. -/
theorem extract_years_spec_amended (text : String) :
    (extract_years_of_experience text = none ↔
      ∀ i, matchYearAt ((pyToLower (clean_text text)).data.drop i) = none) ∧
    (∀ y, extract_years_of_experience text = some y →
      (∃ i rm, matchYearAt ((pyToLower (clean_text text)).data.drop i) = some (y, rm)) ∧
      ∀ i w rm, matchYearAt ((pyToLower (clean_text text)).data.drop i) = some (w, rm) →
        w ≤ y) ∧
    extract_years_of_experience "2 years... later 5+ years" = some 5 := by
  refine ⟨?_, ?_, by decide⟩
  · by_cases he : text = ""
    · subst he
      rw [show extract_years_of_experience "" = none from rfl]
      constructor
      · intro _ i
        rw [show (pyToLower (clean_text "")).data = [] from rfl, List.drop_nil]
        rfl
      · intro _
        rfl
    · simp only [extract_years_of_experience, if_neg he]
      rw [← findYearAux_nil_iff (pyToLower (clean_text text)).data.length
        (pyToLower (clean_text text)).data (le_refl _)]
      rw [show findYearAux (pyToLower (clean_text text)).data.length
        (pyToLower (clean_text text)).data =
        findYearMatches (pyToLower (clean_text text)).data from rfl]
      cases hf : findYearMatches (pyToLower (clean_text text)).data with
      | nil => simp
      | cons v vs => simp
  · intro y hy
    by_cases he : text = ""
    · subst he
      rw [show extract_years_of_experience "" = none from rfl] at hy
      cases hy
    · simp only [extract_years_of_experience, if_neg he] at hy
      cases hf : findYearMatches (pyToLower (clean_text text)).data with
      | nil =>
        rw [hf] at hy
        cases hy
      | cons v vs =>
        rw [hf] at hy
        injection hy with hy'
        subst hy'
        constructor
        · have hmem : vs.foldl max v ∈ v :: vs := by
            rcases foldl_max_mem vs v with h | h
            · rw [h]
              exact List.mem_cons_self _ _
            · exact List.mem_cons_of_mem _ h
          refine findYearAux_mem_position (pyToLower (clean_text text)).data.length
            (pyToLower (clean_text text)).data (le_refl _) _ ?_
          rw [show findYearAux (pyToLower (clean_text text)).data.length
            (pyToLower (clean_text text)).data =
            findYearMatches (pyToLower (clean_text text)).data from rfl, hf]
          exact hmem
        · intro i w rm hm
          obtain ⟨v', hv', hwv'⟩ := findYearAux_position_bound
            (pyToLower (clean_text text)).data.length
            (pyToLower (clean_text text)).data (le_refl _) i w rm hm
          rw [show findYearAux (pyToLower (clean_text text)).data.length
            (pyToLower (clean_text text)).data =
            findYearMatches (pyToLower (clean_text text)).data from rfl, hf] at hv'
          have hle : v' ≤ vs.foldl max v := by
            rcases List.mem_cons.1 hv' with h | h
            · exact foldl_max_le (Or.inl h)
            · exact foldl_max_le (Or.inr h)
          omega

/-- Closed-instance witness for `extract_years_spec_amended`. -/
theorem extract_years_spec_amended_witness :
    ∃ i rm, matchYearAt
      ((pyToLower (clean_text "2 years... later 5+ years")).data.drop i) = some (5, rm) :=
  ((extract_years_spec_amended "2 years... later 5+ years").2.1 5 (by decide)).1

/-- C5, counterexample: on the text "5 + years" the code returns 5 (its regex
allows whitespace before the `+`), while the claim's pattern — digits, then
an optional `+` directly after them, then optional whitespace, then the word —
matches nowhere in that text, so the claim as stated demands the absent
result. -/
theorem extract_years_claim_counterexample :
    extract_years_of_experience "5 + years" = some 5 ∧
    extract_years_spec "5 + years" = none ∧
    ∀ i, matchYearAtSpec ((pyToLower (clean_text "5 + years")).data.drop i) = none := by
  refine ⟨by decide, by decide, ?_⟩
  intro i
  have hlen : ((pyToLower (clean_text "5 + years")).data).length = 9 := by decide
  by_cases hi : i < 9
  · interval_cases i <;> decide
  · rw [List.drop_eq_nil_of_le (by omega)]
    rfl
